import Mathlib

/-! LunateEpsilon playlist converter: embedding of `src/Converter.cpp`.

The converter turns a simple playlist (`.m3u`) into an extended one (`.m3u8`)
and back.  This file embeds `LE::Converter` and the handful of Qt string
operations it calls, and proves the properties the specification states
about it.

A `QString` is modelled as a list of characters.  Every operation the
converter applies to a string matches on ASCII characters only (backslash,
slash, `#`, the text `Music/`, the suffixes `.m3u` and `.m3u8`, white space),
so the difference between UTF-16 code units and code points is not visible
to it.
-/

namespace LE

/-- A Qt string, as the list of its characters. -/
abbrev QString := List Char

/-! ## Qt string operations used by the converter -/

/-- `QString::isEmpty`. -/
def isEmpty (s : QString) : Bool := s.length == 0

/-- `QString::startsWith(QChar)`: the first character is `c`. -/
def startsWithChar (s : QString) (c : Char) : Bool :=
  match s with
  | [] => false
  | x :: _ => x == c

/-- `QString::endsWith(QChar)`: the last character is `c`. -/
def endsWithChar (s : QString) (c : Char) : Bool :=
  match s.getLast? with
  | none => false
  | some x => x == c

/-- `QString::startsWith(QLatin1StringView)`, case sensitive. -/
def startsWith (s pre : QString) : Bool :=
  pre.length ≤ s.length && s.take pre.length == pre

/-- `QString::sliced(pos)`: the text from index `pos` on. -/
def sliced (s : QString) (pos : Nat) : QString := s.drop pos

/-- `QString::chop(n)`: remove `n` characters from the end. -/
def chop (s : QString) (n : Nat) : QString := s.take (s.length - n)

/-- `QString::replace(QChar before, QChar after)`: replace every occurrence. -/
def replaceChar (s : QString) (before after : Char) : QString :=
  s.map fun c => if c == before then after else c

/-- Case folding of one character as far as it matters when the other side
of the comparison is `.m3u` or `.m3u8`: the only characters Unicode folds
onto `m` and `u` are `M` and `U`, and nothing else folds onto `.`, `3`, `8`. -/
def foldCase (c : Char) : Char := c.toLower

/-- `QString::endsWith(str, Qt::CaseInsensitive)`: the last `str.size()`
characters equal `str` after case folding. -/
def endsWithCI (s suffix : QString) : Bool :=
  suffix.length ≤ s.length &&
    (s.drop (s.length - suffix.length)).map foldCase == suffix.map foldCase

/-- `QChar::isSpace`: the ASCII white space `U+0009..U+000D` and `U+0020`,
`U+0085`, `U+00A0`, and the characters of the Unicode separator categories
(Zs, Zl, Zp). -/
def isSpace (c : Char) : Bool :=
  let n := c.toNat
  n == 0x20 || (0x09 ≤ n && n ≤ 0x0d) || n == 0x85 || n == 0xa0 || n == 0x1680 ||
    (0x2000 ≤ n && n ≤ 0x200a) || n == 0x2028 || n == 0x2029 || n == 0x202f ||
    n == 0x205f || n == 0x3000

/-- `QString::trimmed`: white space removed from the start and the end. -/
def trimmed (s : QString) : QString :=
  ((s.dropWhile isSpace).reverse.dropWhile isSpace).reverse

/-! ## Helpers of `Converter` -/

/-- The loop `while (normalized.endsWith('/')) normalized.chop(1);` of
`normalizePath`, run for at most `fuel` rounds. -/
def chopTrailingSlashes : Nat → QString → QString
  | 0, normalized => normalized
  | fuel + 1, normalized =>
    if endsWithChar normalized '/' then chopTrailingSlashes fuel (chop normalized 1)
    else normalized

/-- `Converter::normalizePath`: backslashes become slashes, then trailing
slashes are chopped one at a time.  Each round shortens the string, so its
length bounds the number of rounds. -/
def normalizePath (path : QString) : QString :=
  let normalized := replaceChar path '\\' '/'
  chopTrailingSlashes normalized.length normalized

/-- The constant `prefix` of `stripLeadingMusicPrefix`. -/
def musicPrefix : QString := "Music/".toList

/-- `Converter::stripLeadingMusicPrefix`. -/
def stripLeadingMusicPrefix (line : QString) : QString :=
  if startsWith line musicPrefix then sliced line musicPrefix.length else line

/-! ## Qt file-name operations used by the converter -/

/-- Modelled from the spec: `QFileInfo::fileName` is Qt library code, not part
of the sources.  The specification calls it the final path component (file
name); Qt documents it as the name of the file, excluding the path, that is
the text after the last `/` (all of the text when there is none).  What a
platform does in addition with a drive prefix such as `C:` is not modelled. -/
def fileName (path : QString) : QString :=
  (path.reverse.takeWhile fun c => c != '/').reverse

/-- Modelled from the spec: `QFileInfo::completeBaseName` is Qt library code,
not part of the sources.  The specification calls it the output file's base
name, extension-stripped; Qt documents it as all characters of the file name
up to (but not including) the last `.`. -/
def completeBaseName (path : QString) : QString :=
  let name := fileName path
  if name.contains '.' then ((name.reverse.dropWhile fun c => c != '.').drop 1).reverse
  else name

/-! ## Data model (`Converter.h`) -/

/-- `enum class LocationMode`. -/
inductive LocationMode where
  | Keep
  | Custom
  deriving DecidableEq, Repr

/-- `struct ConversionParams`. -/
structure ConversionParams where
  inputPath : QString
  outputPath : QString
  basePath : QString
  locationMode : LocationMode := LocationMode.Keep

/-- The five `throw std::runtime_error(...)` sites of `Converter.cpp`, one
constructor each; the two that report a failed open carry the path that the
message ends with. -/
inductive ConversionError where
  /-- "Unsupported file type. Expected .m3u or .m3u8." (`convert`). -/
  | unsupportedFileType
  /-- "Base path is required for M3U → M3U8 conversion." (`convertM3uToM3u8`). -/
  | basePathRequired
  /-- "Custom base path is required for custom location mode." (`convertM3u8ToM3u`). -/
  | customBasePathRequired
  /-- "Cannot open input file: " followed by the path (both directions). -/
  | cannotOpenInput (path : QString)
  /-- "Cannot open output file: " followed by the path (both directions). -/
  | cannotOpenOutput (path : QString)
  deriving DecidableEq, Repr

/-- The three error kinds of the specification. -/
inductive ErrorKind where
  | UnsupportedFormat
  | MissingBasePath
  | IoError
  deriving DecidableEq, Repr

/-- The kind of each throw site. -/
def ConversionError.kind : ConversionError → ErrorKind
  | unsupportedFileType => ErrorKind.UnsupportedFormat
  | basePathRequired => ErrorKind.MissingBasePath
  | customBasePathRequired => ErrorKind.MissingBasePath
  | cannotOpenInput _ => ErrorKind.IoError
  | cannotOpenOutput _ => ErrorKind.IoError

/-- The path an error message carries, if any. -/
def ConversionError.path : ConversionError → Option QString
  | cannotOpenInput p => some p
  | cannotOpenOutput p => some p
  | _ => none

/-! ## The file layer

The converter touches the file system through `QFile::open` and two
`QTextStream`s.  What the file system answers is given by a `FileSystem`;
what the converter did to it is recorded in an `Outcome`. -/

/-- The answers of the file system to one run of the converter. -/
structure FileSystem where
  /-- Whether `QFile(path).open(ReadOnly | Text)` succeeds. -/
  canOpenRead : QString → Bool
  /-- Whether `QFile(path).open(WriteOnly | Text | Truncate)` succeeds. -/
  canOpenWrite : QString → Bool
  /-- The lines `readLine()` returns, in order, until `atEnd()`, for a text
  stream on the file at `path`, read once both files are open. -/
  lines : QString → List QString

/-- A call of `QFile::open`. -/
inductive FileOp where
  | openRead (path : QString)
  | openWrite (path : QString)
  deriving DecidableEq, Repr

/-- What one call of the converter did. -/
structure Outcome where
  /-- The exception the call left with; `none` when it returned normally. -/
  error : Option ConversionError
  /-- The `open` calls made, in program order (failed ones included). -/
  opened : List FileOp
  /-- The text sent to the output stream; `none` when the output file was
  not opened for writing, so that it was neither created nor truncated. -/
  output : Option QString
  deriving DecidableEq, Repr

/-! ## `Converter` -/

/-- The `while (!in.atEnd())` loop of `convertM3uToM3u8` over the lines still to
be read; `out` is the text written so far. -/
def expandLoop (base : QString) : List QString → QString → QString
  | [], out => out
  | raw :: rest, out =>
    let line := trimmed raw
    if isEmpty line || startsWithChar line '#' then expandLoop base rest out
    else
      let line := stripLeadingMusicPrefix line
      let line := normalizePath line
      let fullPath := base ++ ['/'] ++ line
      expandLoop base rest (out ++ fullPath ++ ['\n'])

/-- `Converter::convertM3uToM3u8`. -/
def convertM3uToM3u8 (fs : FileSystem) (params : ConversionParams) : Outcome :=
  if isEmpty params.basePath then
    { error := some ConversionError.basePathRequired, opened := [], output := none }
  else
    let base := normalizePath params.basePath
    let outputName := completeBaseName params.outputPath
    if !fs.canOpenRead params.inputPath then
      { error := some (ConversionError.cannotOpenInput params.inputPath)
        opened := [FileOp.openRead params.inputPath]
        output := none }
    else if !fs.canOpenWrite params.outputPath then
      { error := some (ConversionError.cannotOpenOutput params.outputPath)
        opened := [FileOp.openRead params.inputPath, FileOp.openWrite params.outputPath]
        output := none }
    else
      let out : QString := []
      let out := out ++ "#EXTM3U\n".toList
      let out := out ++ "#".toList ++ outputName ++ ".m3u8\n".toList
      let out := expandLoop base (fs.lines params.inputPath) out
      { error := none
        opened := [FileOp.openRead params.inputPath, FileOp.openWrite params.outputPath]
        output := some out }

/-- The `while (!in.atEnd())` loop of `convertM3u8ToM3u`. -/
def collapseLoop (locationMode : LocationMode) (customBase : QString) :
    List QString → QString → QString
  | [], out => out
  | raw :: rest, out =>
    let line := trimmed raw
    if isEmpty line || startsWithChar line '#' then
      collapseLoop locationMode customBase rest out
    else
      let originalPath := normalizePath line
      if locationMode = LocationMode.Keep then
        collapseLoop locationMode customBase rest (out ++ originalPath ++ ['\n'])
      else
        let filename := fileName originalPath
        collapseLoop locationMode customBase rest
          (out ++ customBase ++ ['/'] ++ filename ++ ['\n'])

/-- The first block of `convertM3u8ToM3u`: `customBase` stays empty in `Keep`
mode; in `Custom` mode an empty `basePath` throws. -/
def customBaseOf (params : ConversionParams) : Except ConversionError QString :=
  if params.locationMode = LocationMode.Custom then
    if isEmpty params.basePath then Except.error ConversionError.customBasePathRequired
    else Except.ok (normalizePath params.basePath)
  else Except.ok []

/-- `Converter::convertM3u8ToM3u`. -/
def convertM3u8ToM3u (fs : FileSystem) (params : ConversionParams) : Outcome :=
  match customBaseOf params with
  | Except.error e => { error := some e, opened := [], output := none }
  | Except.ok customBase =>
    if !fs.canOpenRead params.inputPath then
      { error := some (ConversionError.cannotOpenInput params.inputPath)
        opened := [FileOp.openRead params.inputPath]
        output := none }
    else if !fs.canOpenWrite params.outputPath then
      { error := some (ConversionError.cannotOpenOutput params.outputPath)
        opened := [FileOp.openRead params.inputPath, FileOp.openWrite params.outputPath]
        output := none }
    else
      let out := collapseLoop params.locationMode customBase (fs.lines params.inputPath) []
      { error := none
        opened := [FileOp.openRead params.inputPath, FileOp.openWrite params.outputPath]
        output := some out }

/-- `Converter::convert`. -/
def convert (fs : FileSystem) (params : ConversionParams) : Outcome :=
  if !endsWithCI params.inputPath ".m3u".toList &&
      !endsWithCI params.inputPath ".m3u8".toList then
    { error := some ConversionError.unsupportedFileType, opened := [], output := none }
  else if endsWithCI params.inputPath ".m3u".toList then
    convertM3uToM3u8 fs params
  else
    convertM3u8ToM3u fs params

/-! ## Files as the converter leaves and finds them -/

/-- The loop `while (!in.atEnd()) in.readLine()` on a text: a line ends at each
newline, and text left after the last newline is a last line.  `cur` is the
part of the current line already read. -/
def splitLines : QString → QString → List QString
  | [], cur => if isEmpty cur then [] else [cur]
  | c :: rest, cur =>
    if c = '\n' then cur :: splitLines rest [] else splitLines rest (cur ++ [c])

/-- Modelled from the spec: the text stream is Qt library code, not part of
the sources.  The specification calls a file a finite sequence of text lines;
these are the lines a stream on a file opened with `QIODevice::Text` delivers
when the file holds `text`: the text mode takes the carriage returns out, and
`readLine` cuts at the newlines. -/
def readLines (text : QString) : List QString :=
  splitLines (text.filter fun c => c != '\r') []

/-- The text of each file, by path; `none` where there is no file. -/
abbrev Contents := QString → Option QString

/-- The files after a call of the converter: a file opened with
`WriteOnly | Truncate` holds the text sent to the output stream, whatever it
held before; nothing else changes, and nothing changes at all when the output
was not opened. -/
def contentsAfter (before : Contents) (params : ConversionParams) (o : Outcome) : Contents :=
  match o.output with
  | none => before
  | some text => fun path => if path = params.outputPath then some text else before path

/-! ## `MainWindow`: the slots around the Convert button (`MainWindow.cpp`) -/

/-- Modelled from the spec: `QFileInfo::suffix` is Qt library code, not part of
the sources.  The specification speaks of the extension the input path ends
in; Qt documents the suffix as all characters of the file name after (but not
including) its last `.`, and as empty when there is none. -/
def suffix (path : QString) : QString :=
  let name := fileName path
  if name.contains '.' then (name.reverse.takeWhile fun c => c != '.').reverse else []

/-- `QString::toLower`, on the letters a comparison with `m3u` can see. -/
def toLower (s : QString) : QString := s.map Char.toLower

/-- The members and widget properties of `MainWindow` that its slots read and
write on the way to a conversion. -/
structure MainWindow where
  /-- `m_filePath`. -/
  filePath : QString := []
  /-- `m_inputExt`. -/
  inputExt : QString := []
  /-- `m_basePathEdit->text()`. -/
  basePathText : QString := []
  /-- `m_customPathEdit->text()`. -/
  customPathText : QString := []
  /-- `m_locationModeBox->currentIndex()`. -/
  locationIndex : Int := 0
  /-- `m_basePathWidget->isVisible()`. -/
  basePathVisible : Bool := false
  /-- `m_locationModeBox->isVisible()`. -/
  locationModeVisible : Bool := false
  /-- `m_customPathWidget->isVisible()`. -/
  customPathVisible : Bool := false
  /-- `m_convertBtn->isEnabled()`. -/
  convertEnabled : Bool := false
  /-- The argument of the last `setConversionInProgress`, which the progress
  bar shows (`m_progressBar->setVisible(inProgress)`). -/
  inProgress : Bool := false
  deriving DecidableEq, Repr

/-- The window as `buildCentralContent` leaves it. -/
def initialWindow : MainWindow := {}

/-- `MainWindow::updateConvertButtonState`. -/
def updateConvertButtonState (w : MainWindow) : MainWindow :=
  if isEmpty w.filePath then { w with convertEnabled := false }
  else if w.inputExt = "m3u".toList then
    { w with convertEnabled := !isEmpty (trimmed w.basePathText) }
  else { w with convertEnabled := true }

/-- `MainWindow::setConversionInProgress`. -/
def setConversionInProgress (w : MainWindow) (inProgress : Bool) : MainWindow :=
  let w := { w with convertEnabled := !inProgress, inProgress := inProgress }
  if inProgress then w else { w with convertEnabled := true }

/-- `MainWindow::onSelectFile`; `path` is what the file dialog returned. -/
def onSelectFile (w : MainWindow) (path : QString) : MainWindow :=
  if isEmpty path then w
  else
    let w := { w with filePath := path, inputExt := toLower (suffix path) }
    let w :=
      if w.inputExt = "m3u".toList then
        { w with basePathVisible := true, locationModeVisible := false,
                 customPathVisible := false }
      else
        { w with basePathVisible := false, locationModeVisible := true,
                 customPathVisible := false }
    updateConvertButtonState w

/-- `MainWindow::onBasePathTextChanged`. -/
def onBasePathTextChanged (w : MainWindow) : MainWindow := updateConvertButtonState w

/-- `MainWindow::onLocationModeChanged`. -/
def onLocationModeChanged (w : MainWindow) (index : Int) : MainWindow :=
  updateConvertButtonState { w with customPathVisible := index == 1 }

/-- `MainWindow::onConvert`; `savePath` is what the save dialog returned.  The
second component is the request handed to `m_converter` on the thread pool, if
the slot gets that far. -/
def onConvert (w : MainWindow) (savePath : QString) : MainWindow × Option ConversionParams :=
  if isEmpty w.filePath then (w, none)
  else if isEmpty savePath then (w, none)
  else if w.inputExt = "m3u".toList then
    (setConversionInProgress w true,
      some { inputPath := w.filePath, outputPath := savePath,
             basePath := trimmed w.basePathText })
  else if w.locationIndex = 1 then
    if isEmpty (trimmed w.customPathText) then (w, none)
    else
      (setConversionInProgress w true,
        some { inputPath := w.filePath, outputPath := savePath,
               basePath := trimmed w.customPathText, locationMode := LocationMode.Custom })
  else
    (setConversionInProgress w true,
      some { inputPath := w.filePath, outputPath := savePath, basePath := [] })

/-- `MainWindow::onConversionFinished`; `failed` tells whether the future
holds an exception.  On success the progress stays shown until the timer
started here fires. -/
def onConversionFinished (w : MainWindow) (failed : Bool) : MainWindow :=
  if failed then setConversionInProgress w false else w

/-- The lambda that `onConversionFinished` hands to `QTimer::singleShot`. -/
def onProgressTimer (w : MainWindow) : MainWindow := setConversionInProgress w false

/-- What happens to the window: the signals the slots are connected to. -/
inductive Event where
  /-- A click on Select File; the dialog returns `path`. -/
  | selectFile (path : QString)
  /-- The text of the base path edit becomes `text`. -/
  | basePathText (text : QString)
  /-- The text of the custom path edit becomes `text`; no slot is connected. -/
  | customPathText (text : QString)
  /-- The location mode box is set to `index`. -/
  | locationMode (index : Int)
  /-- A click on Convert; the save dialog returns `savePath`. -/
  | clickConvert (savePath : QString)
  /-- The future watcher reports that the conversion ended. -/
  | conversionFinished (failed : Bool)
  /-- The timer of a successful conversion fires. -/
  | progressTimer
  deriving DecidableEq, Repr

/-- One event: the slot connected to its signal runs.  `textChanged` and
`currentIndexChanged` are sent when the value changes, `clicked` only by an
enabled button. -/
def step (w : MainWindow) : Event → MainWindow × Option ConversionParams
  | Event.selectFile path => (onSelectFile w path, none)
  | Event.basePathText text =>
    if text = w.basePathText then (w, none)
    else (onBasePathTextChanged { w with basePathText := text }, none)
  | Event.customPathText text => ({ w with customPathText := text }, none)
  | Event.locationMode index =>
    if index = w.locationIndex then (w, none)
    else (onLocationModeChanged { w with locationIndex := index } index, none)
  | Event.clickConvert savePath =>
    if w.convertEnabled then onConvert w savePath else (w, none)
  | Event.conversionFinished failed => (onConversionFinished w failed, none)
  | Event.progressTimer => (onProgressTimer w, none)

/-- The window after a sequence of events, and the requests handed to the
converter on the way, in order. -/
def run : MainWindow → List Event → MainWindow × List ConversionParams
  | w, [] => (w, [])
  | w, e :: es =>
    let r := step w e
    let rest := run r.1 es
    (rest.1, r.2.toList ++ rest.2)

/-! ## Vocabulary of the statements -/

/-- The text of a file made of the given lines, each ended by a newline. -/
def joinLines : List QString → QString
  | [] => []
  | l :: ls => l ++ '\n' :: joinLines ls

/-- An entry line: a trimmed line that is not empty and does not start with
the comment marker. -/
def isEntry (t : QString) : Bool := decide (t ≠ [] ∧ t.head? ≠ some '#')

/-- The trimmed forms of the input lines that are entries, in input order. -/
def entries (lines : List QString) : List QString :=
  (lines.map trimmed).filter isEntry

/-- The text with every backslash replaced by a slash. -/
def slashed (p : QString) : QString := p.map fun c => if c = '\\' then '/' else c

/-- The path ends with the extension `ext` when letter case is ignored: its
last characters, put in lower case, are those of `ext`. -/
def EndsWithIgnoringCase (s ext : QString) : Prop :=
  ∃ pre suf : QString, s = pre ++ suf ∧ suf.map Char.toLower = ext

/-- The file system of the examples: every open succeeds, and the file
delivers the given lines. -/
def exampleFs (lines : List QString) : FileSystem where
  canOpenRead := fun _ => true
  canOpenWrite := fun _ => true
  lines := fun _ => lines

/-- A file system in which no file can be opened. -/
def lockedFs : FileSystem where
  canOpenRead := fun _ => false
  canOpenWrite := fun _ => false
  lines := fun _ => []

/-- The simple playlist of the specification's expand example. -/
def simpleLines : List QString :=
  ["Music/song1.mp3".toList, "  song2.mp3  ".toList, "#comment".toList, [],
    "sub\\dir\\song3.mp3".toList]

/-- The extended playlist of the specification's collapse examples. -/
def extendedLines : List QString :=
  ["C:/Music/a/song.mp3".toList, "#EXTM3U".toList, []]

/-- The request of the expand example: base path `C:/Music`. -/
def expandParams : ConversionParams where
  inputPath := "list.m3u".toList
  outputPath := "out/mix.tape.m3u8".toList
  basePath := "C:/Music".toList

/-- The request of the collapse example in `Custom` mode: base path `D:/NewBase`. -/
def customParams : ConversionParams where
  inputPath := "list.m3u8".toList
  outputPath := "out/list.m3u".toList
  basePath := "D:/NewBase".toList
  locationMode := LocationMode.Custom

/-- The request of the collapse example in `Keep` mode, with a base path that
plays no part. -/
def keepParams : ConversionParams where
  inputPath := "list.M3U8".toList
  outputPath := "out/list.m3u".toList
  basePath := []

/-- A request whose input is not a playlist. -/
def txtParams : ConversionParams where
  inputPath := "notes.txt".toList
  outputPath := "out/notes.m3u8".toList
  basePath := "C:/Music".toList

/-- An expand request without base path. -/
def noBaseParams : ConversionParams where
  inputPath := "list.m3u".toList
  outputPath := "out/list.m3u8".toList
  basePath := []

/-- The text holds no line-break character. -/
@[reducible] def noLineBreak (s : QString) : Prop := '\n' ∉ s ∧ '\r' ∉ s

/-- The text starts with white space or with the comment marker. -/
def startsWithSpaceOrHash (s : QString) : Bool :=
  match s.head? with
  | none => false
  | some c => isSpace c || c == '#'

/-- The text is not empty and its last character is not white space. -/
def endsWithNonSpace (s : QString) : Bool :=
  match s.getLast? with
  | none => false
  | some c => !isSpace c

/-- The text expand conversion writes for the given input lines when both
files open (empty when it fails). -/
def expandedText (lines : List QString) (params : ConversionParams) : QString :=
  ((convertM3uToM3u8 (exampleFs lines) params).output).getD []

/-- The text collapse conversion in `Keep` mode writes when its input file
holds `text` and both files open. -/
def collapsedKeepText (text : QString) : QString :=
  ((convertM3u8ToM3u (exampleFs (readLines text)) keepParams).output).getD []

/-- The line, as read, passes the skip test of the loops: its trimmed form
is not empty and does not start with the comment marker. -/
def keptLine (raw : QString) : Bool :=
  decide (trimmed raw ≠ [] ∧ (trimmed raw).head? ≠ some '#')

/-- The line is blank (empty or white space only) or its first character, as
read, is the comment marker. -/
def blankOrCommentAsRead (raw : QString) : Bool :=
  raw.all isSpace || raw.head? == some '#'

/-- An expand request whose base path starts with a blank. -/
def blankBaseParams : ConversionParams where
  inputPath := "list.m3u".toList
  outputPath := "out/mix.m3u8".toList
  basePath := " C:/Music".toList

/-- An expand request whose base path starts with the comment marker. -/
def hashBaseParams : ConversionParams where
  inputPath := "list.m3u".toList
  outputPath := "out/mix.m3u8".toList
  basePath := "#music".toList

/-- The events of a session in which the base path is edited while a
conversion is in progress. -/
def editWhileConverting : List Event :=
  [Event.selectFile "list.m3u".toList, Event.basePathText "C:/Music".toList,
    Event.clickConvert "out.m3u8".toList, Event.basePathText "C:/Music2".toList]

/-- The events of a session in which the location mode is changed while a
conversion is in progress. -/
def switchWhileConverting : List Event :=
  [Event.selectFile "list.m3u8".toList, Event.clickConvert "out.m3u".toList,
    Event.locationMode 1]

/-! ## Lemmas on the string operations -/

theorem endsWithChar_iff (s : QString) (c : Char) :
    endsWithChar s c = true ↔ s.getLast? = some c := by
  unfold endsWithChar
  cases h : s.getLast? with
  | none => simp
  | some x => simp

theorem chop_one_concat (t : QString) (c : Char) : chop (t ++ [c]) 1 = t := by
  simp [chop]

/-- With fuel for every character, the loop of `normalizePath` ends because
its test fails: what it removed is a run of slashes and what is left does not
end with a slash. -/
theorem chopTrailingSlashes_spec : ∀ (fuel : Nat) (s : QString), s.length ≤ fuel →
    ∃ k, s = chopTrailingSlashes fuel s ++ List.replicate k '/' ∧
      (chopTrailingSlashes fuel s).getLast? ≠ some '/' := by
  intro fuel
  induction fuel with
  | zero =>
    intro s hs
    have hnil : s = [] := List.eq_nil_of_length_eq_zero (Nat.le_zero.mp hs)
    subst hnil
    exact ⟨0, by simp [chopTrailingSlashes]⟩
  | succ fuel ih =>
    intro s hs
    by_cases h : endsWithChar s '/' = true
    · obtain ⟨t, rfl⟩ := List.getLast?_eq_some_iff.mp ((endsWithChar_iff _ _).mp h)
      have hlen : t.length ≤ fuel := by
        simp only [List.length_append, List.length_singleton] at hs
        omega
      obtain ⟨k, hk, hlast⟩ := ih t hlen
      refine ⟨k + 1, ?_, ?_⟩
      · simp only [chopTrailingSlashes, h, if_true, chop_one_concat]
        rw [List.replicate_succ', ← List.append_assoc, ← hk]
      · simpa only [chopTrailingSlashes, h, if_true, chop_one_concat] using hlast
    · refine ⟨0, ?_, ?_⟩
      · simp [chopTrailingSlashes, h]
      · simp only [chopTrailingSlashes, h]
        intro hl
        exact h ((endsWithChar_iff _ _).mpr hl)

theorem replaceChar_backslash (p : QString) : replaceChar p '\\' '/' = slashed p := by
  simp [replaceChar, slashed]

/-- What `normalizePath` returns: the slashed text is the result followed by
a run of slashes, and the result does not end with a slash. -/
theorem normalizePath_spec (p : QString) :
    ∃ k, slashed p = normalizePath p ++ List.replicate k '/' ∧
      (normalizePath p).getLast? ≠ some '/' := by
  have h := chopTrailingSlashes_spec (slashed p).length (slashed p) (Nat.le_refl _)
  simpa only [normalizePath, replaceChar_backslash] using h

theorem backslash_not_mem_slashed (p : QString) : '\\' ∉ slashed p := by
  intro h
  obtain ⟨c, -, hc⟩ := List.mem_map.mp h
  by_cases hb : c = '\\'
  · rw [if_pos hb] at hc
    exact absurd hc (by decide)
  · rw [if_neg hb] at hc
    exact hb hc

theorem backslash_not_mem_normalizePath (p : QString) : '\\' ∉ normalizePath p := by
  obtain ⟨k, hk, -⟩ := normalizePath_spec p
  intro h
  apply backslash_not_mem_slashed p
  rw [hk]
  exact List.mem_append_left _ h

theorem slashed_eq_self (r : QString) (h : '\\' ∉ r) : slashed r = r := by
  unfold slashed
  conv_rhs => rw [← List.map_id r]
  apply List.map_congr_left
  intro c hc
  have : c ≠ '\\' := fun e => h (e ▸ hc)
  simp [this]

theorem chopTrailingSlashes_fixed (fuel : Nat) (r : QString) (h : r.getLast? ≠ some '/') :
    chopTrailingSlashes fuel r = r := by
  cases fuel with
  | zero => rfl
  | succ n =>
    have : ¬ endsWithChar r '/' = true := fun e => h ((endsWithChar_iff _ _).mp e)
    simp [chopTrailingSlashes, this]

theorem normalizePath_fixed (r : QString) (hb : '\\' ∉ r) (hs : r.getLast? ≠ some '/') :
    normalizePath r = r := by
  simp only [normalizePath, replaceChar_backslash, slashed_eq_self r hb]
  exact chopTrailingSlashes_fixed _ r hs

theorem isEmpty_iff (s : QString) : isEmpty s = true ↔ s = [] := by
  cases s <;> simp [isEmpty]

theorem skip_eq_not_isEntry (t : QString) :
    (isEmpty t || startsWithChar t '#') = !isEntry t := by
  cases t with
  | nil => simp [isEmpty, startsWithChar, isEntry]
  | cons x xs =>
    by_cases hx : x = '#' <;> simp [isEmpty, startsWithChar, isEntry, hx]

theorem joinLines_append (xs ys : List QString) :
    joinLines (xs ++ ys) = joinLines xs ++ joinLines ys := by
  induction xs with
  | nil => rfl
  | cons x xs ih => simp [joinLines, ih]

theorem entries_cons (raw : QString) (rest : List QString) :
    entries (raw :: rest) =
      if isEntry (trimmed raw) then trimmed raw :: entries rest else entries rest := by
  simp only [entries, List.map_cons, List.filter_cons]

/-- The expand loop appends one line per entry, in input order. -/
theorem expandLoop_eq (base : QString) : ∀ (lines : List QString) (out : QString),
    expandLoop base lines out = out ++ joinLines ((entries lines).map fun t =>
      base ++ ['/'] ++ normalizePath (stripLeadingMusicPrefix t)) := by
  intro lines
  induction lines with
  | nil => intro out; simp [expandLoop, entries, joinLines]
  | cons raw rest ih =>
    intro out
    rw [entries_cons]
    by_cases he : isEntry (trimmed raw) = true
    · simp [expandLoop, skip_eq_not_isEntry, he, ih, joinLines]
    · simp [expandLoop, skip_eq_not_isEntry, he, ih]

/-- The collapse loop in `Keep` mode appends the normalized path of each entry. -/
theorem collapseLoop_keep (customBase : QString) : ∀ (lines : List QString) (out : QString),
    collapseLoop LocationMode.Keep customBase lines out =
      out ++ joinLines ((entries lines).map normalizePath) := by
  intro lines
  induction lines with
  | nil => intro out; simp [collapseLoop, entries, joinLines]
  | cons raw rest ih =>
    intro out
    rw [entries_cons]
    by_cases he : isEntry (trimmed raw) = true
    · simp [collapseLoop, skip_eq_not_isEntry, he, ih, joinLines]
    · simp [collapseLoop, skip_eq_not_isEntry, he, ih]

/-- The collapse loop in `Custom` mode appends the custom base and the file
name of each entry. -/
theorem collapseLoop_custom (customBase : QString) : ∀ (lines : List QString) (out : QString),
    collapseLoop LocationMode.Custom customBase lines out =
      out ++ joinLines ((entries lines).map fun t =>
        customBase ++ ['/'] ++ fileName (normalizePath t)) := by
  intro lines
  induction lines with
  | nil => intro out; simp [collapseLoop, entries, joinLines]
  | cons raw rest ih =>
    intro out
    rw [entries_cons]
    by_cases he : isEntry (trimmed raw) = true
    · simp [collapseLoop, skip_eq_not_isEntry, he, ih, joinLines]
    · simp [collapseLoop, skip_eq_not_isEntry, he, ih]

theorem fileName_of_no_slash (q : QString) (h : '/' ∉ q) : fileName q = q := by
  unfold fileName
  rw [List.takeWhile_eq_self_iff.mpr, List.reverse_reverse]
  intro c hc
  have : c ≠ '/' := fun e => h (e ▸ List.mem_reverse.mp hc)
  simp [this]

theorem fileName_after_last_slash (d f : QString) (h : '/' ∉ f) :
    fileName (d ++ '/' :: f) = f := by
  unfold fileName
  have hall : ∀ c ∈ f.reverse, (c != '/') = true := by
    intro c hc
    have : c ≠ '/' := fun e => h (e ▸ List.mem_reverse.mp hc)
    simp [this]
  have hrev : (d ++ '/' :: f).reverse = f.reverse ++ '/' :: d.reverse := by simp
  rw [hrev, List.takeWhile_append, List.takeWhile_eq_self_iff.mpr hall]
  simp

theorem endsWithCI_iff (s ext : QString) (hext : ext.map foldCase = ext) :
    endsWithCI s ext = true ↔ EndsWithIgnoringCase s ext := by
  unfold endsWithCI EndsWithIgnoringCase
  rw [hext]
  constructor
  · intro h
    simp only [Bool.and_eq_true, decide_eq_true_eq, beq_iff_eq] at h
    exact ⟨s.take (s.length - ext.length), s.drop (s.length - ext.length),
      (List.take_append_drop _ _).symm, h.2⟩
  · rintro ⟨pre, suf, rfl, hsuf⟩
    have hlen : suf.length = ext.length := by
      rw [← hsuf, List.length_map]
    have hdrop : List.drop ((pre ++ suf).length - ext.length) (pre ++ suf) = suf := by
      have : (pre ++ suf).length - ext.length = pre.length := by
        simp only [List.length_append]
        omega
      rw [this, List.drop_left]
    simp only [Bool.and_eq_true, decide_eq_true_eq, beq_iff_eq]
    refine ⟨?_, ?_⟩
    · simp only [List.length_append]
      omega
    · rw [hdrop]
      exact hsuf

theorem endsWithCI_m3u_iff (s : QString) :
    endsWithCI s ".m3u".toList = true ↔ EndsWithIgnoringCase s ".m3u".toList :=
  endsWithCI_iff s _ (by decide)

theorem endsWithCI_m3u8_iff (s : QString) :
    endsWithCI s ".m3u8".toList = true ↔ EndsWithIgnoringCase s ".m3u8".toList :=
  endsWithCI_iff s _ (by decide)

/-- A path cannot end with both extensions: the last character would be both
`u` (or `U`) and `8`. -/
theorem not_m3u_and_m3u8 (s : QString) :
    ¬ (EndsWithIgnoringCase s ".m3u".toList ∧ EndsWithIgnoringCase s ".m3u8".toList) := by
  rintro ⟨⟨p1, s1, h1, e1⟩, ⟨p2, s2, h2, e2⟩⟩
  have l1 : (s1.map Char.toLower).getLast? = some 'u' := by rw [e1]; decide
  have l2 : (s2.map Char.toLower).getLast? = some '8' := by rw [e2]; decide
  rw [List.getLast?_map] at l1 l2
  have n1 : s1 ≠ [] := by rintro rfl; simp at e1
  have n2 : s2 ≠ [] := by rintro rfl; simp at e2
  have g1 : s.getLast? = s1.getLast? := by
    rw [h1, List.getLast?_append]
    cases hs : s1.getLast? with
    | none => exact absurd (List.getLast?_eq_none_iff.mp hs) n1
    | some x => simp
  have g2 : s.getLast? = s2.getLast? := by
    rw [h2, List.getLast?_append]
    cases hs : s2.getLast? with
    | none => exact absurd (List.getLast?_eq_none_iff.mp hs) n2
    | some x => simp
  rw [← g1] at l1
  rw [← g2] at l2
  rw [l1] at l2
  exact absurd l2 (by decide)

theorem convert_of_m3u (fs : FileSystem) (params : ConversionParams)
    (h : endsWithCI params.inputPath ".m3u".toList = true) :
    convert fs params = convertM3uToM3u8 fs params := by
  unfold convert
  rw [h]
  rfl

theorem convert_of_m3u8 (fs : FileSystem) (params : ConversionParams)
    (h : endsWithCI params.inputPath ".m3u8".toList = true) :
    convert fs params = convertM3u8ToM3u fs params := by
  have hn : endsWithCI params.inputPath ".m3u".toList = false := by
    cases h1 : endsWithCI params.inputPath ".m3u".toList with
    | false => rfl
    | true =>
      exact absurd ⟨(endsWithCI_m3u_iff _).mp h1, (endsWithCI_m3u8_iff _).mp h⟩
        (not_m3u_and_m3u8 _)
  unfold convert
  rw [h, hn]
  rfl

theorem convert_of_neither (fs : FileSystem) (params : ConversionParams)
    (h1 : endsWithCI params.inputPath ".m3u".toList = false)
    (h2 : endsWithCI params.inputPath ".m3u8".toList = false) :
    convert fs params =
      { error := some ConversionError.unsupportedFileType, opened := [], output := none } := by
  unfold convert
  rw [h1, h2]
  rfl

/-- The four ways `convertM3uToM3u8` ends. -/
theorem convertM3uToM3u8_eq (fs : FileSystem) (params : ConversionParams) :
    convertM3uToM3u8 fs params =
      if params.basePath = [] then
        { error := some ConversionError.basePathRequired, opened := [], output := none }
      else if fs.canOpenRead params.inputPath = false then
        { error := some (ConversionError.cannotOpenInput params.inputPath)
          opened := [FileOp.openRead params.inputPath]
          output := none }
      else if fs.canOpenWrite params.outputPath = false then
        { error := some (ConversionError.cannotOpenOutput params.outputPath)
          opened := [FileOp.openRead params.inputPath, FileOp.openWrite params.outputPath]
          output := none }
      else
        { error := none
          opened := [FileOp.openRead params.inputPath, FileOp.openWrite params.outputPath]
          output := some (joinLines ("#EXTM3U".toList ::
            ("#".toList ++ completeBaseName params.outputPath ++ ".m3u8".toList) ::
            (entries (fs.lines params.inputPath)).map fun t =>
              normalizePath params.basePath ++ "/".toList ++
                normalizePath (stripLeadingMusicPrefix t))) } := by
  unfold convertM3uToM3u8
  by_cases hb : params.basePath = []
  · simp [hb, isEmpty]
  · have hb2 : isEmpty params.basePath = false := by
      cases h : isEmpty params.basePath with
      | false => rfl
      | true => exact absurd ((isEmpty_iff _).mp h) hb
    cases hr : fs.canOpenRead params.inputPath <;>
      cases hw : fs.canOpenWrite params.outputPath <;>
        simp [hb, hb2, expandLoop_eq, joinLines]

/-- The ways `convertM3u8ToM3u` ends. -/
theorem convertM3u8ToM3u_eq (fs : FileSystem) (params : ConversionParams) :
    convertM3u8ToM3u fs params =
      if params.locationMode = LocationMode.Custom ∧ params.basePath = [] then
        { error := some ConversionError.customBasePathRequired, opened := [], output := none }
      else if fs.canOpenRead params.inputPath = false then
        { error := some (ConversionError.cannotOpenInput params.inputPath)
          opened := [FileOp.openRead params.inputPath]
          output := none }
      else if fs.canOpenWrite params.outputPath = false then
        { error := some (ConversionError.cannotOpenOutput params.outputPath)
          opened := [FileOp.openRead params.inputPath, FileOp.openWrite params.outputPath]
          output := none }
      else
        { error := none
          opened := [FileOp.openRead params.inputPath, FileOp.openWrite params.outputPath]
          output := some (joinLines ((entries (fs.lines params.inputPath)).map fun t =>
            if params.locationMode = LocationMode.Keep then normalizePath t
            else normalizePath params.basePath ++ "/".toList ++ fileName (normalizePath t))) } := by
  unfold convertM3u8ToM3u customBaseOf
  cases hm : params.locationMode with
  | Keep =>
    cases hr : fs.canOpenRead params.inputPath <;>
      cases hw : fs.canOpenWrite params.outputPath <;>
        simp [collapseLoop_keep]
  | Custom =>
    by_cases hb : params.basePath = []
    · simp [hb, isEmpty]
    · have hb2 : isEmpty params.basePath = false := by
        cases h : isEmpty params.basePath with
        | false => rfl
        | true => exact absurd ((isEmpty_iff _).mp h) hb
      cases hr : fs.canOpenRead params.inputPath <;>
        cases hw : fs.canOpenWrite params.outputPath <;>
          simp [hb, hb2, collapseLoop_custom]

/-! ## The conversions -/

/-- C1: expand conversion (`convertM3uToM3u8`): with a non-empty base path and
both files open, the call returns normally and the output is exactly the line
`#EXTM3U`, the line `#` + label + `.m3u8` (the label is the complete base name
of the output path), then, in input order, one line
`normalizePath(basePath) + "/" + normalizePath(stripLeadingMusicPrefix(t))` for
each input line whose trimmed form `t` is non-empty and does not start with
`#`, and nothing else. -/
theorem convertM3uToM3u8_output (fs : FileSystem) (params : ConversionParams)
    (lines : List QString) (hbase : params.basePath ≠ [])
    (hin : fs.canOpenRead params.inputPath = true)
    (hout : fs.canOpenWrite params.outputPath = true)
    (hlines : fs.lines params.inputPath = lines) :
    (convertM3uToM3u8 fs params).error = none ∧
    (convertM3uToM3u8 fs params).output = some (joinLines
      ("#EXTM3U".toList ::
        ("#".toList ++ completeBaseName params.outputPath ++ ".m3u8".toList) ::
        ((lines.map trimmed).filter fun t => decide (t ≠ [] ∧ t.head? ≠ some '#')).map fun t =>
          normalizePath params.basePath ++ "/".toList ++
            normalizePath (stripLeadingMusicPrefix t))) := by
  subst hlines
  rw [convertM3uToM3u8_eq, if_neg hbase, hin, hout]
  exact ⟨rfl, rfl⟩

/-- The expand example of the specification, evaluated. -/
theorem convertM3uToM3u8_output_witness :
    (convertM3uToM3u8 (exampleFs simpleLines) expandParams).output = some
      ("#EXTM3U\n#mix.tape.m3u8\nC:/Music/song1.mp3\nC:/Music/song2.mp3\n" ++
        "C:/Music/sub/dir/song3.mp3\n").toList :=
  (convertM3uToM3u8_output (exampleFs simpleLines) expandParams simpleLines
    (by decide) rfl rfl rfl).2.trans (by decide)

/-- C2: collapse conversion in `Custom` mode: with a non-empty base path and
both files open, the output is exactly, in input order, one line
`normalizePath(basePath) + "/" + f` for each input line whose trimmed form `t`
is non-empty and does not start with `#`, where `f` is the file name of
`normalizePath(t)`: the text after its last slash, or all of it when it has no
slash.  No header line is written. -/
theorem convertM3u8ToM3u_custom_output (fs : FileSystem) (params : ConversionParams)
    (lines : List QString) (hmode : params.locationMode = LocationMode.Custom)
    (hbase : params.basePath ≠ [])
    (hin : fs.canOpenRead params.inputPath = true)
    (hout : fs.canOpenWrite params.outputPath = true)
    (hlines : fs.lines params.inputPath = lines) :
    (convertM3u8ToM3u fs params).error = none ∧
    (convertM3u8ToM3u fs params).output = some (joinLines
      (((lines.map trimmed).filter fun t => decide (t ≠ [] ∧ t.head? ≠ some '#')).map fun t =>
        normalizePath params.basePath ++ "/".toList ++ fileName (normalizePath t))) ∧
    (∀ q : QString, '/' ∉ q → fileName q = q) ∧
    (∀ d f : QString, '/' ∉ f → fileName (d ++ '/' :: f) = f) := by
  subst hlines
  have hne : ¬ (params.locationMode = LocationMode.Custom ∧ params.basePath = []) :=
    fun h => hbase h.2
  rw [convertM3u8ToM3u_eq, if_neg hne, hin, hout]
  refine ⟨rfl, ?_, fileName_of_no_slash, fileName_after_last_slash⟩
  rw [hmode]
  rfl

/-- The `Custom` example of the specification, evaluated. -/
theorem convertM3u8ToM3u_custom_output_witness :
    (convertM3u8ToM3u (exampleFs extendedLines) customParams).output =
      some "D:/NewBase/song.mp3\n".toList :=
  (convertM3u8ToM3u_custom_output (exampleFs extendedLines) customParams extendedLines
    rfl (by decide) rfl rfl rfl).2.1.trans (by decide)

/-- C3: collapse conversion in `Keep` mode: whatever the base path, with both
files open the call returns normally and the output is exactly, in input
order, one line `normalizePath(t)` for each input line whose trimmed form `t`
is non-empty and does not start with `#`, without header line; the same holds
of `convert` on an input path ending with `.m3u8`; and a run with any other
base path does the same. -/
theorem convertM3u8ToM3u_keep_output (fs : FileSystem) (params : ConversionParams)
    (lines : List QString) (hmode : params.locationMode = LocationMode.Keep)
    (hin : fs.canOpenRead params.inputPath = true)
    (hout : fs.canOpenWrite params.outputPath = true)
    (hlines : fs.lines params.inputPath = lines) :
    (convertM3u8ToM3u fs params).error = none ∧
    (convertM3u8ToM3u fs params).output = some (joinLines
      (((lines.map trimmed).filter fun t => decide (t ≠ [] ∧ t.head? ≠ some '#')).map
        normalizePath)) ∧
    (EndsWithIgnoringCase params.inputPath ".m3u8".toList →
      convert fs params = convertM3u8ToM3u fs params) ∧
    (∀ basePath : QString,
      convertM3u8ToM3u fs { params with basePath := basePath } = convertM3u8ToM3u fs params) := by
  subst hlines
  have hne : ∀ b : QString, ¬ (params.locationMode = LocationMode.Custom ∧ b = []) := by
    intro b h
    rw [hmode] at h
    exact absurd h.1 (by decide)
  refine ⟨?_, ?_, ?_, ?_⟩
  · rw [convertM3u8ToM3u_eq, if_neg (hne _), hin, hout]
    rfl
  · rw [convertM3u8ToM3u_eq, if_neg (hne _), hin, hout, hmode]
    rfl
  · intro h
    exact convert_of_m3u8 fs params ((endsWithCI_m3u8_iff _).mpr h)
  · intro b
    rw [convertM3u8ToM3u_eq, convertM3u8ToM3u_eq]
    simp [hmode]

/-- The `Keep` example of the specification, evaluated. -/
theorem convertM3u8ToM3u_keep_output_witness :
    (convertM3u8ToM3u (exampleFs extendedLines) keepParams).output =
      some "C:/Music/a/song.mp3\n".toList :=
  (convertM3u8ToM3u_keep_output (exampleFs extendedLines) keepParams extendedLines
    rfl rfl rfl rfl).2.1.trans (by decide)

/-- C4: `convert` fails with the `UnsupportedFormat` error exactly when the
input path ends with neither `.m3u` nor `.m3u8`, letter case ignored, whatever
the other fields of the request and the file system are; it then has opened
no file, and the output file is neither created nor truncated. -/
theorem convert_unsupportedFormat_iff (fs : FileSystem) (params : ConversionParams) :
    ((convert fs params).error.map ConversionError.kind = some ErrorKind.UnsupportedFormat ↔
      ¬ EndsWithIgnoringCase params.inputPath ".m3u".toList ∧
        ¬ EndsWithIgnoringCase params.inputPath ".m3u8".toList) ∧
    ((convert fs params).error.map ConversionError.kind = some ErrorKind.UnsupportedFormat →
      (convert fs params).opened = [] ∧ (convert fs params).output = none) := by
  rw [← endsWithCI_m3u_iff, ← endsWithCI_m3u8_iff]
  cases h1 : endsWithCI params.inputPath ".m3u".toList with
  | true =>
    rw [convert_of_m3u fs params h1, convertM3uToM3u8_eq]
    constructor
    · split_ifs <;> simp [ConversionError.kind]
    · split_ifs <;> simp [ConversionError.kind]
  | false =>
    cases h2 : endsWithCI params.inputPath ".m3u8".toList with
    | true =>
      rw [convert_of_m3u8 fs params h2, convertM3u8ToM3u_eq]
      constructor
      · split_ifs <;> simp [ConversionError.kind]
      · split_ifs <;> simp [ConversionError.kind]
    | false =>
      rw [convert_of_neither fs params h1 h2]
      simp [ConversionError.kind]

/-- A `.txt` input fails with `UnsupportedFormat` and no file is opened. -/
theorem convert_unsupportedFormat_witness :
    (convert (exampleFs simpleLines) txtParams).error.map ConversionError.kind =
        some ErrorKind.UnsupportedFormat ∧
      (convert (exampleFs simpleLines) txtParams).opened = [] ∧
      (convert (exampleFs simpleLines) txtParams).output = none :=
  have h := (convert_unsupportedFormat_iff (exampleFs simpleLines) txtParams).1.mpr
    ⟨fun h => absurd ((endsWithCI_m3u_iff _).mpr h) (by decide),
      fun h => absurd ((endsWithCI_m3u8_iff _).mpr h) (by decide)⟩
  ⟨h, (convert_unsupportedFormat_iff (exampleFs simpleLines) txtParams).2 h⟩

/-- C5: dispatch in `convert` depends on the end of the input path only: an
input path ending with `.m3u` in any letter case is handled by
`convertM3uToM3u8`, one ending with `.m3u8` in any letter case by
`convertM3u8ToM3u`, whatever the location mode, base path, output path and
file system are; and no path ends with both. -/
theorem convert_dispatch (fs : FileSystem) (params : ConversionParams) :
    (EndsWithIgnoringCase params.inputPath ".m3u".toList →
      convert fs params = convertM3uToM3u8 fs params) ∧
    (EndsWithIgnoringCase params.inputPath ".m3u8".toList →
      convert fs params = convertM3u8ToM3u fs params) ∧
    ¬ (EndsWithIgnoringCase params.inputPath ".m3u".toList ∧
      EndsWithIgnoringCase params.inputPath ".m3u8".toList) :=
  ⟨fun h => convert_of_m3u fs params ((endsWithCI_m3u_iff _).mpr h),
    fun h => convert_of_m3u8 fs params ((endsWithCI_m3u8_iff _).mpr h),
    not_m3u_and_m3u8 _⟩

/-- An input path ending with `.M3U8` goes to the collapse conversion. -/
theorem convert_dispatch_witness :
    convert (exampleFs extendedLines) keepParams =
      convertM3u8ToM3u (exampleFs extendedLines) keepParams :=
  (convert_dispatch (exampleFs extendedLines) keepParams).2.1
    ⟨"list".toList, ".M3U8".toList, by decide, by decide⟩

/-- C6: for a request whose input path has a recognized extension, `convert`
fails with the `MissingBasePath` error exactly when the base path as given is
the empty string and the request is either an expand conversion or a collapse
conversion in `Custom` mode; it then has opened no file, whatever the file
system is (so also when the input file does not exist). -/
theorem convert_missingBasePath_iff (fs : FileSystem) (params : ConversionParams)
    (hext : EndsWithIgnoringCase params.inputPath ".m3u".toList ∨
      EndsWithIgnoringCase params.inputPath ".m3u8".toList) :
    ((convert fs params).error.map ConversionError.kind = some ErrorKind.MissingBasePath ↔
      (EndsWithIgnoringCase params.inputPath ".m3u".toList ∧ params.basePath = []) ∨
        (EndsWithIgnoringCase params.inputPath ".m3u8".toList ∧
          params.locationMode = LocationMode.Custom ∧ params.basePath = [])) ∧
    ((convert fs params).error.map ConversionError.kind = some ErrorKind.MissingBasePath →
      (convert fs params).opened = [] ∧ (convert fs params).output = none) := by
  rcases hext with h | h
  · have hn : ¬ EndsWithIgnoringCase params.inputPath ".m3u8".toList :=
      fun h8 => not_m3u_and_m3u8 _ ⟨h, h8⟩
    rw [convert_of_m3u fs params ((endsWithCI_m3u_iff _).mpr h), convertM3uToM3u8_eq]
    constructor
    · split_ifs <;> simp_all [ConversionError.kind]
    · split_ifs <;> simp [ConversionError.kind]
  · have hn : ¬ EndsWithIgnoringCase params.inputPath ".m3u".toList :=
      fun h3 => not_m3u_and_m3u8 _ ⟨h3, h⟩
    rw [convert_of_m3u8 fs params ((endsWithCI_m3u8_iff _).mpr h), convertM3u8ToM3u_eq]
    constructor
    · split_ifs <;> simp_all [ConversionError.kind]
    · split_ifs <;> simp [ConversionError.kind]

/-- An expand request with an empty base path fails with `MissingBasePath`
although no file can be opened. -/
theorem convert_missingBasePath_witness :
    (convert lockedFs noBaseParams).error.map ConversionError.kind =
        some ErrorKind.MissingBasePath ∧
      (convert lockedFs noBaseParams).opened = [] :=
  have hext : EndsWithIgnoringCase noBaseParams.inputPath ".m3u".toList :=
    ⟨"list".toList, ".m3u".toList, by decide, by decide⟩
  have h := (convert_missingBasePath_iff lockedFs noBaseParams (Or.inl hext)).1.mpr
    (Or.inl ⟨hext, rfl⟩)
  ⟨h, ((convert_missingBasePath_iff lockedFs noBaseParams (Or.inl hext)).2 h).1⟩

/-- C7: for a request that passes the extension and base-path checks, in both
directions, `convert` fails with an `IoError` exactly when the input file
cannot be opened for reading or the output file cannot be opened for writing.
The error carries the input path when the input open fails (whatever the
output open would do) and the output path when the input opens and the output
open fails; when both opens succeed `convert` returns normally, whatever the
lines are. -/
theorem convert_ioError_iff (fs : FileSystem) (params : ConversionParams)
    (hext : EndsWithIgnoringCase params.inputPath ".m3u".toList ∨
      EndsWithIgnoringCase params.inputPath ".m3u8".toList)
    (hbase : ¬ ((EndsWithIgnoringCase params.inputPath ".m3u".toList ∧ params.basePath = []) ∨
      (EndsWithIgnoringCase params.inputPath ".m3u8".toList ∧
        params.locationMode = LocationMode.Custom ∧ params.basePath = []))) :
    ((convert fs params).error.map ConversionError.kind = some ErrorKind.IoError ↔
      fs.canOpenRead params.inputPath = false ∨ fs.canOpenWrite params.outputPath = false) ∧
    (fs.canOpenRead params.inputPath = false →
      (convert fs params).error = some (ConversionError.cannotOpenInput params.inputPath)) ∧
    (fs.canOpenRead params.inputPath = true → fs.canOpenWrite params.outputPath = false →
      (convert fs params).error = some (ConversionError.cannotOpenOutput params.outputPath)) ∧
    (fs.canOpenRead params.inputPath = true → fs.canOpenWrite params.outputPath = true →
      (convert fs params).error = none) := by
  rcases hext with h | h
  · have hb : ¬ params.basePath = [] := fun e => hbase (Or.inl ⟨h, e⟩)
    rw [convert_of_m3u fs params ((endsWithCI_m3u_iff _).mpr h), convertM3uToM3u8_eq, if_neg hb]
    cases hr : fs.canOpenRead params.inputPath <;>
      cases hw : fs.canOpenWrite params.outputPath <;> simp [ConversionError.kind]
  · have hb : ¬ (params.locationMode = LocationMode.Custom ∧ params.basePath = []) :=
      fun e => hbase (Or.inr ⟨h, e⟩)
    rw [convert_of_m3u8 fs params ((endsWithCI_m3u8_iff _).mpr h), convertM3u8ToM3u_eq, if_neg hb]
    cases hr : fs.canOpenRead params.inputPath <;>
      cases hw : fs.canOpenWrite params.outputPath <;> simp [ConversionError.kind]

/-- A collapse request on a file system where nothing opens fails with the
error that carries the input path. -/
theorem convert_ioError_witness :
    (convert lockedFs keepParams).error =
      some (ConversionError.cannotOpenInput keepParams.inputPath) :=
  have hext : EndsWithIgnoringCase keepParams.inputPath ".m3u8".toList :=
    ⟨"list".toList, ".M3U8".toList, by decide, by decide⟩
  (convert_ioError_iff lockedFs keepParams (Or.inr hext)
    (fun h => h.elim (fun h3 => not_m3u_and_m3u8 _ ⟨h3.1, hext⟩)
      (fun h8 => absurd h8.2.1 (by decide)))).2.1 rfl

/-! ## The helpers of `Converter` -/

/-- C8: `normalizePath` is total and is the longest prefix not ending with a
slash of the text with every backslash replaced by a slash: it is such a
prefix, and no such prefix is longer.  So it holds no backslash, does not end
with a slash, and is empty when the path is made of slashes and backslashes
only (the empty path included); `a/b///` gives `a/b`. -/
theorem normalizePath_is_longest (p : QString) :
    (normalizePath p <+: slashed p ∧ (normalizePath p).getLast? ≠ some '/' ∧
      ∀ r : QString, r <+: slashed p → r.getLast? ≠ some '/' →
        r.length ≤ (normalizePath p).length) ∧
    '\\' ∉ normalizePath p ∧
    ((∀ c ∈ p, c = '/' ∨ c = '\\') → normalizePath p = []) ∧
    normalizePath [] = [] ∧
    normalizePath "a/b///".toList = "a/b".toList := by
  obtain ⟨k, hk, hlast⟩ := normalizePath_spec p
  refine ⟨⟨⟨_, hk.symm⟩, hlast, ?_⟩, backslash_not_mem_normalizePath p, ?_, by decide, by decide⟩
  · intro r hr hrl
    by_contra hlt
    have hlt : (normalizePath p).length < r.length := Nat.lt_of_not_le hlt
    have hr2 : r = List.take r.length (slashed p) := List.prefix_iff_eq_take.mp hr
    rw [hk, List.take_append_eq_append_take, List.take_of_length_le (Nat.le_of_lt hlt),
      List.take_replicate] at hr2
    apply hrl
    rw [hr2, List.getLast?_append, List.getLast?_replicate]
    have hr3 := congrArg List.length hr2
    simp only [List.length_append, List.length_replicate] at hr3
    have hne : ¬ (min (r.length - (normalizePath p).length) k = 0) := by omega
    simp [hne]
  · intro hall
    have hsl : ∀ c ∈ slashed p, c = '/' := by
      intro c hc
      obtain ⟨d, hd, rfl⟩ := List.mem_map.mp hc
      rcases hall d hd with h | h <;> simp [h]
    cases hlast2 : (normalizePath p).getLast? with
    | none => exact List.getLast?_eq_none_iff.mp hlast2
    | some x =>
      exfalso
      apply hlast
      rw [hlast2]
      have hx : x ∈ normalizePath p := List.mem_of_getLast?_eq_some hlast2
      have : x ∈ slashed p := by
        rw [hk]
        exact List.mem_append_left _ hx
      rw [hsl x this]

/-- C9: `normalizePath` is idempotent. -/
theorem normalizePath_idempotent (p : QString) :
    normalizePath (normalizePath p) = normalizePath p := by
  obtain ⟨k, -, hlast⟩ := normalizePath_spec p
  exact normalizePath_fixed _ (backslash_not_mem_normalizePath p) hlast

/-- C10: `stripLeadingMusicPrefix` is total and removes exactly one leading,
case-sensitive `Music/`: applied to `Music/` followed by `s` it gives `s`, and
a line that does not start with `Music/` is returned unchanged. -/
theorem stripLeadingMusicPrefix_spec :
    (∀ s : QString, stripLeadingMusicPrefix ("Music/".toList ++ s) = s) ∧
    (∀ l : QString, ¬ "Music/".toList <+: l → stripLeadingMusicPrefix l = l) ∧
    stripLeadingMusicPrefix "Music/Music/a".toList = "Music/a".toList ∧
    stripLeadingMusicPrefix "music/a".toList = "music/a".toList ∧
    stripLeadingMusicPrefix "Music\\a".toList = "Music\\a".toList := by
  refine ⟨?_, ?_, by decide, by decide, by decide⟩
  · intro s
    simp [stripLeadingMusicPrefix, startsWith, sliced, musicPrefix]
  · intro l hl
    have hfalse : startsWith l musicPrefix = false := by
      cases hsw : startsWith l musicPrefix with
      | false => rfl
      | true =>
        exfalso
        apply hl
        simp only [startsWith, Bool.and_eq_true, decide_eq_true_eq, beq_iff_eq] at hsw
        exact List.prefix_iff_eq_take.mpr (by simpa [musicPrefix] using hsw.2.symm)
    simp [stripLeadingMusicPrefix, hfalse]

/-- A path made of slashes and backslashes only normalizes to the empty path. -/
theorem normalizePath_is_longest_witness : normalizePath "\\/\\".toList = [] :=
  (normalizePath_is_longest "\\/\\".toList).2.2.1 (by decide)

/-- A lower-case `music/` is not the prefix and stays. -/
theorem stripLeadingMusicPrefix_spec_witness :
    stripLeadingMusicPrefix "music/a".toList = "music/a".toList :=
  stripLeadingMusicPrefix_spec.2.1 "music/a".toList (by decide)

/-! ## The skip test of the loops -/

theorem entries_eq_filter_keptLine (lines : List QString) :
    entries lines = (lines.filter keptLine).map trimmed := by
  unfold entries
  rw [List.filter_map]
  rfl

theorem joinLines_eq_nil_iff (ls : List QString) : joinLines ls = [] ↔ ls = [] := by
  cases ls with
  | nil => simp [joinLines]
  | cons l ls => simp [joinLines]

/-- C12, as stated, fails: the line `  #x` is not blank and its first
character, as read, is a blank and not `#`, yet no direction writes a line for
it, and expand conversion of a file holding this one line writes the two
header lines only. -/
theorem skip_test_as_read_counterexample :
    blankOrCommentAsRead "  #x".toList = false ∧
    expandLoop "C:/Music".toList ["  #x".toList] [] = [] ∧
    collapseLoop LocationMode.Keep [] ["  #x".toList] [] = [] ∧
    collapseLoop LocationMode.Custom "D:/NewBase".toList ["  #x".toList] [] = [] ∧
    List.countP (fun l => !blankOrCommentAsRead l) ["  #x".toList] = 1 ∧
    (convertM3uToM3u8 (exampleFs ["  #x".toList]) expandParams).output =
      some "#EXTM3U\n#mix.tape.m3u8\n".toList := by
  decide

/-- C12, amended: in both directions the skip test is made on the trimmed
line.  Each loop writes, in input order, one line for every input line whose
trimmed form is non-empty and does not start with `#`, built from that trimmed
form, and nothing for the others; so the number of path lines written is the
number of such input lines, and a single input line leaves the output as it is
exactly when its trimmed form is empty or starts with `#`. -/
theorem skip_test_on_trimmed (base customBase : QString) (mode : LocationMode)
    (lines : List QString) (out : QString) :
    expandLoop base lines out = out ++ joinLines ((lines.filter keptLine).map fun l =>
      base ++ "/".toList ++ normalizePath (stripLeadingMusicPrefix (trimmed l))) ∧
    collapseLoop mode customBase lines out = out ++ joinLines ((lines.filter keptLine).map fun l =>
      if mode = LocationMode.Keep then normalizePath (trimmed l)
      else customBase ++ "/".toList ++ fileName (normalizePath (trimmed l))) ∧
    ((lines.filter keptLine).map fun l =>
      base ++ "/".toList ++ normalizePath (stripLeadingMusicPrefix (trimmed l))).length =
        lines.countP keptLine ∧
    (∀ raw : QString, expandLoop base [raw] out = out ↔
      (trimmed raw = [] ∨ (trimmed raw).head? = some '#')) ∧
    (∀ raw : QString, collapseLoop mode customBase [raw] out = out ↔
      (trimmed raw = [] ∨ (trimmed raw).head? = some '#')) := by
  have hexp : ∀ ls : List QString, expandLoop base ls out =
      out ++ joinLines ((ls.filter keptLine).map fun l =>
        base ++ "/".toList ++ normalizePath (stripLeadingMusicPrefix (trimmed l))) := by
    intro ls
    rw [expandLoop_eq, entries_eq_filter_keptLine, List.map_map]
    rfl
  have hcol : ∀ ls : List QString, collapseLoop mode customBase ls out =
      out ++ joinLines ((ls.filter keptLine).map fun l =>
        if mode = LocationMode.Keep then normalizePath (trimmed l)
        else customBase ++ "/".toList ++ fileName (normalizePath (trimmed l))) := by
    intro ls
    cases mode with
    | Keep =>
      rw [collapseLoop_keep, entries_eq_filter_keptLine, List.map_map]
      rfl
    | Custom =>
      rw [collapseLoop_custom, entries_eq_filter_keptLine, List.map_map]
      rfl
  have hkept : ∀ raw : QString, keptLine raw = false ↔
      (trimmed raw = [] ∨ (trimmed raw).head? = some '#') := by
    intro raw
    unfold keptLine
    rw [decide_eq_false_iff_not]
    constructor
    · intro h
      by_cases h1 : trimmed raw = []
      · exact Or.inl h1
      · by_cases h2 : (trimmed raw).head? = some '#'
        · exact Or.inr h2
        · exact absurd ⟨h1, h2⟩ h
    · rintro (h | h) ⟨h1, h2⟩
      · exact h1 h
      · exact h2 h
  refine ⟨hexp lines, hcol lines, ?_, ?_, ?_⟩
  · rw [List.length_map, List.countP_eq_length_filter]
  · intro raw
    rw [hexp [raw], ← hkept raw]
    cases hk : keptLine raw with
    | false => simp [List.filter_cons, hk, joinLines]
    | true => simp [List.filter_cons, hk, joinLines]
  · intro raw
    rw [hcol [raw], ← hkept raw]
    cases hk : keptLine raw with
    | false => simp [List.filter_cons, hk, joinLines]
    | true => simp [List.filter_cons, hk, joinLines]

/-! ## Failures before the output is opened -/

/-- C13: when `convert` fails with `MissingBasePath`, or because the input
file cannot be opened, the output file was not opened for writing (so it is
neither created nor truncated) and every file holds what it held before the
call.  In every run the open calls are an initial part of: input for reading,
then output for writing. -/
theorem convert_failure_leaves_files (fs : FileSystem) (params : ConversionParams)
    (before : Contents)
    (hfail : (convert fs params).error.map ConversionError.kind =
        some ErrorKind.MissingBasePath ∨
      (convert fs params).error = some (ConversionError.cannotOpenInput params.inputPath)) :
    (convert fs params).output = none ∧
    (∀ path : QString, FileOp.openWrite path ∉ (convert fs params).opened) ∧
    contentsAfter before params (convert fs params) = before ∧
    (convert fs params).opened <+:
      [FileOp.openRead params.inputPath, FileOp.openWrite params.outputPath] := by
  have key : (convert fs params).output = none ∧
      (∀ path : QString, FileOp.openWrite path ∉ (convert fs params).opened) ∧
      (convert fs params).opened <+:
        [FileOp.openRead params.inputPath, FileOp.openWrite params.outputPath] := by
    cases h1 : endsWithCI params.inputPath ".m3u".toList with
    | true =>
      rw [convert_of_m3u fs params h1, convertM3uToM3u8_eq] at hfail ⊢
      split_ifs at hfail ⊢ <;>
        simp_all [ConversionError.kind, List.prefix_iff_eq_take]
    | false =>
      cases h2 : endsWithCI params.inputPath ".m3u8".toList with
      | true =>
        rw [convert_of_m3u8 fs params h2, convertM3u8ToM3u_eq] at hfail ⊢
        split_ifs at hfail ⊢ <;>
          simp_all [ConversionError.kind, List.prefix_iff_eq_take]
      | false =>
        rw [convert_of_neither fs params h1 h2] at hfail ⊢
        simp_all [ConversionError.kind]
  refine ⟨key.1, key.2.1, ?_, key.2.2⟩
  unfold contentsAfter
  rw [key.1]

/-- A collapse request on a file system where nothing opens leaves a file at
the output path as it was. -/
theorem convert_failure_leaves_files_witness :
    contentsAfter (fun _ => some "old".toList) keepParams (convert lockedFs keepParams)
      keepParams.outputPath = some "old".toList :=
  congrFun (convert_failure_leaves_files lockedFs keepParams (fun _ => some "old".toList)
    (Or.inr (by decide))).2.2.1 keepParams.outputPath

/-! ## The Convert button -/

/-- C14 fails on the code: a file is selected, a base path typed, Convert
clicked (the conversion is now in progress and the button disabled), and the
base path edited again.  `onBasePathTextChanged` calls
`updateConvertButtonState`, which enables the button although the conversion
is still in progress; a second click then hands a second request to the
converter.  Changing the location mode during a collapse conversion does the
same. -/
theorem convert_button_enabled_in_progress :
    (run initialWindow (editWhileConverting.take 3)).1.inProgress = true ∧
    (run initialWindow (editWhileConverting.take 3)).1.convertEnabled = false ∧
    (run initialWindow editWhileConverting).1.inProgress = true ∧
    (run initialWindow editWhileConverting).1.convertEnabled = true ∧
    (run initialWindow (editWhileConverting ++ [Event.clickConvert "out2.m3u8".toList])).2.map
      (fun p => p.outputPath) = ["out.m3u8".toList, "out2.m3u8".toList] ∧
    (run initialWindow switchWhileConverting).1.inProgress = true ∧
    (run initialWindow switchWhileConverting).1.convertEnabled = true := by
  decide

/-! ## Expand, then collapse in `Keep` mode -/

theorem splitLines_line (l rest : QString) (h : '\n' ∉ l) : ∀ cur : QString,
    splitLines (l ++ '\n' :: rest) cur = (cur ++ l) :: splitLines rest [] := by
  induction l with
  | nil => intro cur; simp [splitLines]
  | cons c l ih =>
    intro cur
    have hc : c ≠ '\n' := fun e => h (e ▸ List.mem_cons_self _ _)
    have hl : '\n' ∉ l := fun e => h (List.mem_cons_of_mem _ e)
    simp [splitLines, hc, ih hl (cur ++ [c])]

theorem splitLines_joinLines (ls : List QString) (h : ∀ l ∈ ls, '\n' ∉ l) :
    splitLines (joinLines ls) [] = ls := by
  induction ls with
  | nil => rfl
  | cons l ls ih =>
    rw [joinLines, splitLines_line l _ (h l (List.mem_cons_self _ _)) [],
      ih (fun l' hl' => h l' (List.mem_cons_of_mem _ hl'))]
    rfl

theorem mem_joinLines {c : Char} {ls : List QString} (h : c ∈ joinLines ls) :
    c = '\n' ∨ ∃ l ∈ ls, c ∈ l := by
  induction ls with
  | nil => simp [joinLines] at h
  | cons l ls ih =>
    rw [joinLines, List.mem_append, List.mem_cons] at h
    rcases h with h | h | h
    · exact Or.inr ⟨l, List.mem_cons_self _ _, h⟩
    · exact Or.inl h
    · rcases ih h with h' | ⟨l', hl', hc⟩
      · exact Or.inl h'
      · exact Or.inr ⟨l', List.mem_cons_of_mem _ hl', hc⟩

/-- A file written as lines without line-break characters is read back as
the same lines. -/
theorem readLines_joinLines (ls : List QString) (h : ∀ l ∈ ls, noLineBreak l) :
    readLines (joinLines ls) = ls := by
  unfold readLines
  have hfilter : (joinLines ls).filter (fun c => c != '\r') = joinLines ls := by
    rw [List.filter_eq_self]
    intro c hc
    rcases mem_joinLines hc with rfl | ⟨l, hl, hcl⟩
    · decide
    · have : c ≠ '\r' := fun e => (h l hl).2 (e ▸ hcl)
      simp [this]
  rw [hfilter]
  exact splitLines_joinLines ls (fun l hl => (h l hl).1)

theorem mem_of_mem_trimmed {c : Char} {s : QString} (h : c ∈ trimmed s) : c ∈ s := by
  unfold trimmed at h
  have h1 := List.mem_reverse.mp h
  have h2 := (List.dropWhile_sublist isSpace).mem h1
  have h3 := List.mem_reverse.mp h2
  exact (List.dropWhile_sublist isSpace).mem h3

theorem mem_of_mem_stripLeadingMusic {c : Char} {s : QString}
    (h : c ∈ stripLeadingMusicPrefix s) : c ∈ s := by
  unfold stripLeadingMusicPrefix at h
  split_ifs at h
  · exact List.mem_of_mem_drop h
  · exact h

theorem mem_of_mem_slashed {c : Char} {s : QString} (h : c ∈ slashed s) : c = '/' ∨ c ∈ s := by
  obtain ⟨d, hd, rfl⟩ := List.mem_map.mp h
  by_cases hb : d = '\\'
  · exact Or.inl (by simp [hb])
  · exact Or.inr (by simpa [hb] using hd)

theorem mem_of_mem_normalizePath {c : Char} {s : QString} (h : c ∈ normalizePath s) :
    c = '/' ∨ c ∈ s := by
  obtain ⟨k, hk, -⟩ := normalizePath_spec s
  apply mem_of_mem_slashed
  rw [hk]
  exact List.mem_append_left _ h

theorem mem_of_mem_fileName {c : Char} {s : QString} (h : c ∈ fileName s) : c ∈ s := by
  unfold fileName at h
  exact List.mem_reverse.mp ((List.takeWhile_sublist _).mem (List.mem_reverse.mp h))

theorem mem_of_mem_completeBaseName {c : Char} {s : QString} (h : c ∈ completeBaseName s) :
    c ∈ s := by
  unfold completeBaseName at h
  apply mem_of_mem_fileName
  simp only at h
  split_ifs at h
  · exact List.mem_reverse.mp ((List.dropWhile_sublist _).mem
      (List.mem_of_mem_drop (List.mem_reverse.mp h)))
  · exact h

theorem noLineBreak_normalizePath {s : QString} (h : noLineBreak s) :
    noLineBreak (normalizePath s) := by
  constructor
  · intro hc
    rcases mem_of_mem_normalizePath hc with e | e
    · exact absurd e (by decide)
    · exact h.1 e
  · intro hc
    rcases mem_of_mem_normalizePath hc with e | e
    · exact absurd e (by decide)
    · exact h.2 e

theorem noLineBreak_append {s t : QString} (hs : noLineBreak s) (ht : noLineBreak t) :
    noLineBreak (s ++ t) := by
  constructor
  · intro h
    rcases List.mem_append.mp h with h | h
    · exact hs.1 h
    · exact ht.1 h
  · intro h
    rcases List.mem_append.mp h with h | h
    · exact hs.2 h
    · exact ht.2 h

theorem noLineBreak_of_subset {s t : QString} (hs : noLineBreak s) (h : ∀ c ∈ t, c ∈ s) :
    noLineBreak t :=
  ⟨fun hc => hs.1 (h _ hc), fun hc => hs.2 (h _ hc)⟩

theorem dropWhile_eq_self_of_head (p : Char → Bool) (s : QString)
    (h : ∀ c, s.head? = some c → p c = false) : s.dropWhile p = s := by
  cases s with
  | nil => rfl
  | cons x xs => simp [List.dropWhile_cons, h x rfl]

/-- Trimming leaves a text that neither starts nor ends with white space as
it is. -/
theorem trimmed_eq_self (s : QString) (hh : ∀ c, s.head? = some c → isSpace c = false)
    (hl : ∀ c, s.getLast? = some c → isSpace c = false) : trimmed s = s := by
  unfold trimmed
  rw [dropWhile_eq_self_of_head _ s hh,
    dropWhile_eq_self_of_head _ s.reverse (by rw [List.head?_reverse]; exact hl),
    List.reverse_reverse]

theorem head_normalizePath {b : QString} {c : Char} (h : (normalizePath b).head? = some c) :
    ∃ c0, b.head? = some c0 ∧ c = if c0 = '\\' then '/' else c0 := by
  obtain ⟨k, hk, -⟩ := normalizePath_spec b
  have hne : normalizePath b ≠ [] := by
    intro e
    rw [e] at h
    simp at h
  have h2 : (slashed b).head? = some c := by
    rw [hk, List.head?_append_of_ne_nil _ hne, h]
  unfold slashed at h2
  rw [List.head?_map] at h2
  obtain ⟨c0, hc0, hf⟩ := Option.map_eq_some'.mp h2
  exact ⟨c0, hc0, hf.symm⟩

theorem entries_eq_self (ls : List QString)
    (h : ∀ l ∈ ls, trimmed l = l ∧ isEntry l = true) : entries ls = ls := by
  induction ls with
  | nil => rfl
  | cons l ls ih =>
    rw [entries_cons, (h l (List.mem_cons_self _ _)).1, (h l (List.mem_cons_self _ _)).2,
      if_pos rfl, ih (fun l' hl' => h l' (List.mem_cons_of_mem _ hl'))]

/-- A path line that expand conversion writes is left as it is by the
trimming, the skip test and the normalization of collapse conversion, when
the base path starts with neither white space nor `#` and the entry part is
not empty and does not end with white space. -/
theorem pathLine_fixed (b u : QString)
    (hb : ∀ c, b.head? = some c → isSpace c = false ∧ c ≠ '#')
    (hx : normalizePath u ≠ [])
    (hxl : ∀ c, (normalizePath u).getLast? = some c → isSpace c = false) :
    trimmed (normalizePath b ++ "/".toList ++ normalizePath u) =
        normalizePath b ++ "/".toList ++ normalizePath u ∧
      isEntry (normalizePath b ++ "/".toList ++ normalizePath u) = true ∧
      normalizePath (normalizePath b ++ "/".toList ++ normalizePath u) =
        normalizePath b ++ "/".toList ++ normalizePath u := by
  have hlast : (normalizePath b ++ "/".toList ++ normalizePath u).getLast? =
      (normalizePath u).getLast? := List.getLast?_append_of_ne_nil _ hx
  have hhead : ∀ c, (normalizePath b ++ "/".toList ++ normalizePath u).head? = some c →
      isSpace c = false ∧ c ≠ '#' := by
    intro c hc
    by_cases hnb : normalizePath b = []
    · rw [hnb] at hc
      have : c = '/' := by simpa using hc.symm
      subst this
      exact ⟨by decide, by decide⟩
    · rw [List.append_assoc, List.head?_append_of_ne_nil _ hnb] at hc
      obtain ⟨c0, hc0, rfl⟩ := head_normalizePath hc
      by_cases hbs : c0 = '\\'
      · rw [if_pos hbs]
        exact ⟨by decide, by decide⟩
      · rw [if_neg hbs]
        exact hb c0 hc0
  have hne : normalizePath b ++ "/".toList ++ normalizePath u ≠ [] := by
    intro e
    exact hx (List.append_eq_nil.mp e).2
  refine ⟨trimmed_eq_self _ (fun c hc => (hhead c hc).1) ?_, ?_, ?_⟩
  · intro c hc
    rw [hlast] at hc
    exact hxl c hc
  · unfold isEntry
    rw [decide_eq_true_iff]
    exact ⟨hne, fun h => (hhead '#' h).2 rfl⟩
  · apply normalizePath_fixed
    · intro h
      rcases List.mem_append.mp h with h | h
      · rcases List.mem_append.mp h with h | h
        · exact backslash_not_mem_normalizePath b h
        · exact absurd h (by decide)
      · exact backslash_not_mem_normalizePath u h
    · rw [hlast]
      obtain ⟨k, -, hl⟩ := normalizePath_spec u
      exact hl

/-- C11, as stated, fails.  With the base path ` C:/Music` (a leading blank)
expand conversion writes the path line ` C:/Music/song.mp3` and collapse
conversion in `Keep` mode writes `C:/Music/song.mp3`.  With the entries
`Music/` and `dir /` it writes `C:/Music/` and `C:/Music/dir ` (a trailing
blank), which collapse turns into `C:/Music` and `C:/Music/dir`.  With the base
path `#music` every path line is taken for a comment and nothing is written. -/
theorem collapse_keep_after_expand_counterexample :
    (readLines (expandedText ["song.mp3".toList] blankBaseParams)).drop 2 =
        [" C:/Music/song.mp3".toList] ∧
      collapsedKeepText (expandedText ["song.mp3".toList] blankBaseParams) =
        "C:/Music/song.mp3\n".toList ∧
    (readLines (expandedText ["Music/".toList, "dir /".toList] expandParams)).drop 2 =
        ["C:/Music/".toList, "C:/Music/dir ".toList] ∧
      collapsedKeepText (expandedText ["Music/".toList, "dir /".toList] expandParams) =
        "C:/Music\nC:/Music/dir\n".toList ∧
    (readLines (expandedText ["song.mp3".toList] hashBaseParams)).drop 2 =
        ["#music/song.mp3".toList] ∧
      collapsedKeepText (expandedText ["song.mp3".toList] hashBaseParams) = [] ∧
    collapsedKeepText (expandedText ["song.mp3".toList] blankBaseParams) ≠
      joinLines ((readLines (expandedText ["song.mp3".toList] blankBaseParams)).drop 2) := by
  decide

/-- C11, amended: let the input lines, the base path and the output path hold
no line-break character, the base path be non-empty and start with neither
white space nor `#`, and the normalized path of every entry be non-empty and
not end with white space.  Then the file expand conversion writes is read
back as its two header lines followed by the path lines, and collapse
conversion in `Keep` mode on that file returns normally and outputs exactly
those path lines (every line after the two header lines), unchanged and in the
same order. -/
theorem collapse_keep_after_expand (fs1 fs2 : FileSystem) (p1 p2 : ConversionParams)
    (lines : List QString) (text : QString)
    (hbase : p1.basePath ≠ [])
    (hlines : fs1.lines p1.inputPath = lines)
    (hexp : (convertM3uToM3u8 fs1 p1).output = some text)
    (hkeep : p2.locationMode = LocationMode.Keep)
    (hin : fs2.canOpenRead p2.inputPath = true)
    (hout : fs2.canOpenWrite p2.outputPath = true)
    (hfile : fs2.lines p2.inputPath = readLines text)
    (hnlb : noLineBreak p1.basePath) (hnlo : noLineBreak p1.outputPath)
    (hnll : ∀ l ∈ lines, noLineBreak l)
    (hhead : startsWithSpaceOrHash p1.basePath = false)
    (hentry : ∀ t ∈ entries lines,
      endsWithNonSpace (normalizePath (stripLeadingMusicPrefix t)) = true) :
    readLines text = "#EXTM3U".toList ::
      ("#".toList ++ completeBaseName p1.outputPath ++ ".m3u8".toList) ::
      (entries lines).map (fun t =>
        normalizePath p1.basePath ++ "/".toList ++
          normalizePath (stripLeadingMusicPrefix t)) ∧
    (convertM3u8ToM3u fs2 p2).error = none ∧
    (convertM3u8ToM3u fs2 p2).output = some (joinLines ((readLines text).drop 2)) := by
  subst hlines
  -- the text written by expand conversion
  have htext : text = joinLines ("#EXTM3U".toList ::
      ("#".toList ++ completeBaseName p1.outputPath ++ ".m3u8".toList) ::
      (entries (fs1.lines p1.inputPath)).map (fun t =>
        normalizePath p1.basePath ++ "/".toList ++
          normalizePath (stripLeadingMusicPrefix t))) := by
    rw [convertM3uToM3u8_eq, if_neg hbase] at hexp
    cases hr : fs1.canOpenRead p1.inputPath with
    | false =>
      rw [hr, if_pos rfl] at hexp
      exact absurd hexp (by simp)
    | true =>
      cases hw : fs1.canOpenWrite p1.outputPath with
      | false =>
        rw [hr, hw, if_neg (by decide), if_pos rfl] at hexp
        exact absurd hexp (by simp)
      | true =>
        rw [hr, hw, if_neg (by decide), if_neg (by decide)] at hexp
        exact (Option.some.inj hexp).symm
  -- what the hypotheses say of the base path and of the entries
  have hb : ∀ c, p1.basePath.head? = some c → isSpace c = false ∧ c ≠ '#' := by
    intro c hc
    unfold startsWithSpaceOrHash at hhead
    rw [hc] at hhead
    simp only [Bool.or_eq_false_iff, beq_eq_false_iff_ne, ne_eq] at hhead
    exact hhead
  have hx : ∀ t ∈ entries (fs1.lines p1.inputPath),
      normalizePath (stripLeadingMusicPrefix t) ≠ [] ∧
        ∀ c, (normalizePath (stripLeadingMusicPrefix t)).getLast? = some c →
          isSpace c = false := by
    intro t ht
    have h := hentry t ht
    unfold endsWithNonSpace at h
    constructor
    · intro e
      rw [e] at h
      simp at h
    · intro c hc
      rw [hc] at h
      simpa using h
  have hfixed : ∀ l ∈ (entries (fs1.lines p1.inputPath)).map (fun t =>
      normalizePath p1.basePath ++ "/".toList ++ normalizePath (stripLeadingMusicPrefix t)),
      (trimmed l = l ∧ isEntry l = true) ∧ normalizePath l = l := by
    intro l hl
    obtain ⟨t, ht, rfl⟩ := List.mem_map.mp hl
    have h := pathLine_fixed p1.basePath (stripLeadingMusicPrefix t) hb (hx t ht).1 (hx t ht).2
    exact ⟨⟨h.1, h.2.1⟩, h.2.2⟩
  -- no written line holds a line break
  have hnlEntry : ∀ t ∈ entries (fs1.lines p1.inputPath), noLineBreak t := by
    intro t ht
    unfold entries at ht
    obtain ⟨l, hl, rfl⟩ := List.mem_map.mp (List.mem_filter.mp ht).1
    exact noLineBreak_of_subset (hnll l hl) (fun c hc => mem_of_mem_trimmed hc)
  have hnl : ∀ l ∈ "#EXTM3U".toList ::
      ("#".toList ++ completeBaseName p1.outputPath ++ ".m3u8".toList) ::
      (entries (fs1.lines p1.inputPath)).map (fun t =>
        normalizePath p1.basePath ++ "/".toList ++
          normalizePath (stripLeadingMusicPrefix t)), noLineBreak l := by
    intro l hl
    rcases List.mem_cons.mp hl with rfl | hl
    · exact ⟨by decide, by decide⟩
    rcases List.mem_cons.mp hl with rfl | hl
    · exact noLineBreak_append (noLineBreak_append ⟨by decide, by decide⟩
        (noLineBreak_of_subset hnlo (fun c hc => mem_of_mem_completeBaseName hc)))
        ⟨by decide, by decide⟩
    · obtain ⟨t, ht, rfl⟩ := List.mem_map.mp hl
      exact noLineBreak_append (noLineBreak_append (noLineBreak_normalizePath hnlb)
        ⟨by decide, by decide⟩)
        (noLineBreak_normalizePath (noLineBreak_of_subset (hnlEntry t ht)
          (fun c hc => mem_of_mem_stripLeadingMusic hc)))
  have hread := readLines_joinLines _ hnl
  rw [← htext] at hread
  -- the header lines are skipped, the path lines are entries
  have hh1 : isEntry (trimmed "#EXTM3U".toList) = false := by decide
  have hh2 : isEntry (trimmed ("#".toList ++ completeBaseName p1.outputPath ++ ".m3u8".toList))
      = false := by
    have hl : ("#".toList ++ completeBaseName p1.outputPath ++ ".m3u8".toList).getLast? =
        some '8' := by
      rw [List.getLast?_append_of_ne_nil _ (by decide)]
      rfl
    rw [trimmed_eq_self]
    · simp [isEntry]
    · intro c hc
      have : c = '#' := by simpa using hc.symm
      subst this
      decide
    · intro c hc
      rw [hl] at hc
      have : c = '8' := (Option.some.inj hc).symm
      subst this
      decide
  have hne : ¬ (p2.locationMode = LocationMode.Custom ∧ p2.basePath = []) := by
    intro h
    rw [hkeep] at h
    exact absurd h.1 (by decide)
  refine ⟨hread, ?_, ?_⟩
  · rw [convertM3u8ToM3u_eq, if_neg hne, hin, hout]
    rfl
  · rw [convertM3u8ToM3u_eq, if_neg hne, hin, hout, hfile, hread, hkeep]
    simp only [Bool.true_eq_false, if_false, if_true, List.drop_succ_cons, List.drop_zero]
    rw [entries_cons, hh1, entries_cons, hh2]
    simp only [Bool.false_eq_true, if_false]
    rw [entries_eq_self _ (fun l hl => (hfixed l hl).1),
      List.map_congr_left (fun l hl => (hfixed l hl).2), List.map_id']

/-- The expand example of the specification, collapsed again in `Keep` mode:
the three path lines come back unchanged. -/
theorem collapse_keep_after_expand_witness :
    (convertM3u8ToM3u (exampleFs (readLines (expandedText simpleLines expandParams)))
        keepParams).output =
      some ("C:/Music/song1.mp3\nC:/Music/song2.mp3\n" ++
        "C:/Music/sub/dir/song3.mp3\n").toList :=
  (collapse_keep_after_expand (exampleFs simpleLines)
    (exampleFs (readLines (expandedText simpleLines expandParams))) expandParams keepParams
    simpleLines (expandedText simpleLines expandParams)
    (by decide) rfl (by decide) rfl rfl rfl rfl (by decide) (by decide) (by decide)
    (by decide) (by decide)).2.2.trans (by decide)

end LE
